import Mathlib

/-!
Verification of the EDI field-reference resolution logic of `src/main.py`
(`parse_field_code`, `parse_edi_field`) against its design specification.

The two Python functions are pure string-to-string functions; they are
embedded here as computable Lean functions over `List Char` (with `String`
wrappers), mirroring the Python control flow branch by branch.  Python
regular expressions are embedded by their matching semantics on the ASCII
inputs the tool processes (leftmost match, greedy quantifiers with
backtracking, as analysed per pattern in comments at each definition).
-/

namespace EdiSearchSS

abbrev Chars := List Char

/-! ### Character classes (ASCII, as used by the Python code) -/

/-- Whitespace stripped by Python `str.strip()`. -/
def pyWhitespace (c : Char) : Bool :=
  c == ' ' || c == '\t' || c == '\n' || c == '\r' || c == '\x0b' || c == '\x0c'

/-- Digit class: Python `\d` / `str.isdigit` on ASCII input. -/
def isDigitC (c : Char) : Bool :=
  c == '0' || c == '1' || c == '2' || c == '3' || c == '4' ||
  c == '5' || c == '6' || c == '7' || c == '8' || c == '9'

/-- Letter class `[A-Za-z]`. -/
def isAlphaC (c : Char) : Bool :=
  ('A' ≤ c && c ≤ 'Z') || ('a' ≤ c && c ≤ 'z')

/-- Class `[A-Za-z/]` used for qualifier runs. -/
def isAlphaSlashC (c : Char) : Bool := isAlphaC c || c == '/'

/-- Uppercase letter class `[A-Z]` used by the loop-id regex. -/
def isUpperC (c : Char) : Bool := 'A' ≤ c && c ≤ 'Z'

/-- Python `str.upper()` on ASCII characters. -/
def toUpperC (c : Char) : Char :=
  if 'a' ≤ c && c ≤ 'z' then Char.ofNat (c.toNat - 32) else c

/-! ### List-of-characters primitives -/

/-- Does `l` start with `p`? -/
def startsWithL : Chars → Chars → Bool
  | _, [] => true
  | [], _ :: _ => false
  | a :: as, b :: bs => a == b && startsWithL as bs

/-- Does `l` end with `p`? (Python `str.endswith`.) -/
def endsWithL (l p : Chars) : Bool := startsWithL l.reverse p.reverse

/-- Substring containment: Python `pat in l`. -/
def containsSub (l pat : Chars) : Bool :=
  match l with
  | [] => startsWithL [] pat
  | c :: t => startsWithL (c :: t) pat || containsSub t pat

/-- Index of the first occurrence of `pat` in `l`: Python `l.find(pat)` (as an `Option`). -/
def findSubL (pat : Chars) : Chars → Option Nat
  | [] => if startsWithL [] pat then some 0 else none
  | c :: t =>
    if startsWithL (c :: t) pat then some 0
    else (findSubL pat t).map (· + 1)

/-- The part of `l` before the first occurrence of `sep`, and (when the
separator occurs) the remainder after it: the data needed for Python's
`l.split(sep)[0]` and `l.split(sep)[1]`. -/
def splitHead (sep l : Chars) : Chars × Option Chars :=
  match findSubL sep l with
  | none => (l, none)
  | some i => (l.take i, some (l.drop (i + sep.length)))

/-- Python `str.strip()`. -/
def stripL (l : Chars) : Chars :=
  ((l.dropWhile pyWhitespace).reverse.dropWhile pyWhitespace).reverse

/-- Python `str.upper()`. -/
def upperL (l : Chars) : Chars := l.map toUpperC

/-- Python `s.split(sep)[-1]` for a one-character separator: the run after
the last occurrence of the separator (the whole string if it is absent). -/
def lastSlashPart (l : Chars) : Chars :=
  (l.reverse.takeWhile (fun c => !(c == '/'))).reverse

/-! ### `parse_field_code` (src/main.py lines 54-108) -/

/-- The `NUMBERED_SEGMENTS` table of `parse_field_code`. -/
def NUMBERED_SEGMENTS : List Chars :=
  ["NM1", "N1", "N2", "N3", "N4", "SV1", "SV2", "SV3", "SV4", "SV5",
   "HI", "HL", "K3", "G1", "G2", "G3", "LX", "SE", "ST", "GS", "GE",
   "ISA", "IEA", "TA1"].map String.data

/-- Matching of the remainder after a numbered-segment tag against
`^(\d+)-(\d+)$` (element and sub-element) or `^(\d+)$` (element only);
returns the captured groups. -/
def numRest (rest : Chars) : Option (Chars × Option Chars) :=
  let E := rest.takeWhile isDigitC
  if E.isEmpty then none
  else
    match rest.drop E.length with
    | [] => some (E, none)
    | '-' :: t2 =>
      let S := t2.takeWhile isDigitC
      if S.isEmpty then none
      else if (t2.drop S.length).isEmpty then some (E, some S) else none
    | _ => none

/-- Pattern 1 of `parse_field_code`: scan the numbered-segment table in
order; the first tag that is a prefix of the field code with a numeric
`element(-subelement)` remainder wins; a prefix tag whose remainder does
not match lets the scan continue (as in the Python loop). -/
def tryNumbered : List Chars → Chars → Option (Chars × Chars × Option Chars)
  | [], _ => none
  | seg :: rest, fc =>
    if startsWithL fc seg then
      match numRest (fc.drop seg.length) with
      | some (e, s) => some (seg, e, s)
      | none => tryNumbered rest fc
    else tryNumbered rest fc

/-- Patterns 2 and 3 of `parse_field_code`:
`^([A-Za-z]+)(\d+)-(\d+)$` then `^([A-Za-z]+)(\d+)$` — a full-string
match of letters, then digits, then an optional `-digits` sub-element. -/
def simpleSegment (fc : Chars) : Option (Chars × Chars × Option Chars) :=
  let A := fc.takeWhile isAlphaC
  let r := fc.drop A.length
  let N := r.takeWhile isDigitC
  let t := r.drop N.length
  if A.isEmpty || N.isEmpty then none
  else
    match t with
    | [] => some (A, N, none)
    | '-' :: t2 =>
      let M := t2.takeWhile isDigitC
      if !M.isEmpty && (t2.drop M.length).isEmpty then some (A, N, some M) else none
    | _ => none

/-- Result record of `parse_field_code`: `(segment, element_num, sub_element, search_term)`. -/
structure FieldCode where
  segment : Chars
  elementNum : Chars
  subElement : Option Chars
  searchTerm : Chars
  deriving DecidableEq, Repr

/-- `parse_field_code` on character lists. -/
def parseFieldCodeL (input : Chars) : FieldCode :=
  let fc := upperL (stripL input)
  match tryNumbered NUMBERED_SEGMENTS fc with
  | some (seg, e, s) => ⟨seg, e, s, seg ++ [ '*' ]⟩
  | none =>
    match simpleSegment fc with
    | some (seg, e, s) => ⟨seg, e, s, seg ++ [ '*' ]⟩
    | none => ⟨fc, [], none, fc ++ [ '*' ]⟩

/-- `parse_field_code` (src/main.py line 54). -/
def parse_field_code (s : String) : String × String × Option String × String :=
  let r := parseFieldCodeL s.data
  (String.mk r.segment, String.mk r.elementNum,
   r.subElement.map String.mk, String.mk r.searchTerm)

/-! ### `parse_edi_field` (src/main.py lines 111-352): normalisation -/

/-- The compound-field separator handled at line 134: the spaced form only. -/
def plusSep : Chars := " + ".data

/-- The double-dash qualifier separator. -/
def ddSep : Chars := " -- ".data

/-- The spaced single-dash qualifier separator. -/
def sdSep : Chars := " - ".data

/-- The bare space-dash prefix tested by the third qualifier branch. -/
def spSep : Chars := " -".data

/-- Line 134: `if ' + ' in edi_field: edi_field = edi_field.split(' + ')[0].strip()`. -/
def compoundStep (f0 : Chars) : Chars :=
  if containsSub f0 plusSep then stripL (splitHead plusSep f0).1 else f0

/-- Python `re.search(r' -([A-Za-z/]+)', f)` (line 154): the group of the
leftmost position where a space-dash is followed by at least one letter or
slash; a space-dash followed by anything else is skipped and the scan
resumes (no match can start at the skipped dash itself, since a match
starts with a space, so resuming after it is equivalent). -/
def dashQualSearch : Chars → Option Chars
  | ' ' :: '-' :: rest =>
    let run := rest.takeWhile isAlphaSlashC
    if run.isEmpty then dashQualSearch rest else some run
  | _ :: rest => dashQualSearch rest
  | [] => none

/-- Output of the qualifier-extraction block (lines 137-167):
the rewritten field, the extracted qualifier, and its style marker
(`"double_dash"`, `"dash"` or `"attached"` as in the Python strings). -/
structure QualResult where
  field : Chars
  qualifier : Option Chars
  qtype : Option String
  deriving DecidableEq, Repr

/-- Lines 141-158: the three mutually exclusive qualifier patterns, tried
in priority order `" -- "`, `" - "`, `" -"`; the split keeps Python's
`parts[0]`/`parts[1]` (the text between the first and second separator). -/
def extractQual (f : Chars) : QualResult :=
  if containsSub f ddSep then
    let p := splitHead ddSep f
    ⟨stripL p.1, some (stripL (splitHead ddSep (p.2.getD [])).1), some "double_dash"⟩
  else if containsSub f sdSep then
    let p := splitHead sdSep f
    ⟨stripL p.1, some (stripL (splitHead sdSep (p.2.getD [])).1), some "dash"⟩
  else if containsSub f spSep then
    match dashQualSearch f with
    | some run => ⟨stripL (f.take ((findSubL spSep f).getD 0)), some (stripL run), some "dash"⟩
    | none => ⟨f, none, none⟩
  else ⟨f, none, none⟩

/-- Python `re.search(r'HI(\d+)-(\d+)-([A-Za-z/]+)$', f, re.IGNORECASE)`
(line 163) together with the truncation `f[:f.rfind('-' + qualifier)]`
(line 166).  The `$`-anchored pattern matches exactly when the string ends
with a nonempty `[A-Za-z/]` run preceded by `-`, a nonempty digit run,
`-`, a nonempty digit run, and `HI` (case-insensitive); the qualifier is
the trailing run, and the field is truncated just before its dash. -/
def hiAttached (f : Chars) : Option (Chars × Chars) :=
  let r := f.reverse
  let q := r.takeWhile isAlphaSlashC
  if q.isEmpty then none
  else
    match r.drop q.length with
    | '-' :: r2 =>
      let d2 := r2.takeWhile isDigitC
      if d2.isEmpty then none
      else
        match r2.drop d2.length with
        | '-' :: r3 =>
          let d1 := r3.takeWhile isDigitC
          if d1.isEmpty then none
          else
            match r3.drop d1.length with
            | i :: h :: _ =>
              if toUpperC i == 'I' && toUpperC h == 'H' then
                some (f.take (f.length - q.length - 1), q.reverse)
              else none
            | _ => none
        | _ => none
    | _ => none

/-- Lines 160-167: the attached-HI-qualifier step, applied only when the
qualifier is falsy — Python's `not qualifier` holds both when no qualifier
was extracted (`None`) and when the extracted qualifier is the empty
string (reachable through doubled separators) — and the field contains
`HI`. -/
def normalizeQual (f1 : Chars) : QualResult :=
  let r := extractQual f1
  if (r.qualifier.getD []).isEmpty && containsSub (upperL r.field) "HI".data then
    match hiAttached r.field with
    | some (nf, qq) => ⟨nf, some qq, some "attached"⟩
    | none => r
  else r

/-- Lines 169-173: `re.match(r'^(\d{4}[A-Z]{0,2})', f.upper())` — a loop
id is four leading digits followed greedily by up to two uppercase
letters of the uppercased field (the field itself is left unchanged). -/
def loopIdOf (f : Chars) : Option Chars :=
  match upperL f with
  | a :: b :: c :: d :: rest =>
    if isDigitC a && isDigitC b && isDigitC c && isDigitC d then
      some (a :: b :: c :: d :: (rest.takeWhile isUpperC).take 2)
    else none
  | _ => none

/-! ### `parse_edi_field`: segment classification (lines 175-233) -/

/-- `NUMBERED_SEGMENTS_3` (line 176). -/
def NUMBERED_SEGMENTS_3 : List Chars :=
  ["NM1", "SV1", "SV2", "SV3", "SV4", "SV5", "TA1", "CL1"].map String.data

/-- `SEGMENTS_2` (line 179). -/
def SEGMENTS_2 : List Chars :=
  ["N1", "N2", "N3", "N4", "HI", "HL", "K3", "G1", "G2", "G3",
   "LX", "SE", "ST", "GS", "GE"].map String.data

/-- `SEGMENTS_3` (line 182). -/
def SEGMENTS_3 : List Chars :=
  ["CLM", "BHT", "DTP", "REF", "AMT", "QTY", "DMG", "PAT", "SBR", "CAS",
   "OI", "MOA", "LIN", "CTP", "PRV", "CN1", "PWK", "CR1", "CR2", "CR3",
   "CR5", "CR6", "CRC", "HCP", "TST", "MEA", "PER"].map String.data

/-- Lines 200-207: a two-letter segment matches only at the first
occurrence of the tag in the uppercased field, and only when it is
immediately followed by a digit. -/
def seg2Check (u seg : Chars) : Bool :=
  match findSubL seg u with
  | none => false
  | some i =>
    match u.drop (i + seg.length) with
    | c :: _ => isDigitC c
    | [] => false

/-- Pattern 2 (line 211): `re.match(r'^([A-Za-z]+\d?)(\d+)(?:-\d+)?$', f)`;
with greedy backtracking, group 1 is the leading letter run plus the first
digit exactly when at least two digits follow the letters.  Returns
`group(1).upper()`. -/
def pat2Segment (f : Chars) : Option Chars :=
  let A := f.takeWhile isAlphaC
  if A.isEmpty then none
  else
    let r := f.drop A.length
    let N := r.takeWhile isDigitC
    if N.isEmpty then none
    else
      let t := r.drop N.length
      let ok :=
        match t with
        | [] => true
        | '-' :: t2 =>
          let M := t2.takeWhile isDigitC
          !M.isEmpty && (t2.drop M.length).isEmpty
        | _ => false
      if ok then some (upperL (A ++ N.take (if 2 ≤ N.length then 1 else 0)))
      else none

/-- Pattern 3 (line 217): `re.match(r'^(\d*)([A-Za-z]+\d?)([A-Za-z]*)(\d+)', f)`;
the candidate is `(group(2) + group(3)).upper()`.  With backtracking: after
the leading digits and the first letter run, a digit must follow; the
candidate keeps that digit and the next letter run when another digit
follows them, and otherwise is just the first letter run. -/
def pat3Candidate (f : Chars) : Option Chars :=
  let Z := f.takeWhile isDigitC
  let r1 := f.drop Z.length
  let L1 := r1.takeWhile isAlphaC
  if L1.isEmpty then none
  else
    match r1.drop L1.length with
    | d :: rest2 =>
      if isDigitC d then
        let L2 := rest2.takeWhile isAlphaC
        match rest2.drop L2.length with
        | e :: _ => if isDigitC e then some (upperL (L1 ++ d :: L2)) else some (upperL L1)
        | [] => some (upperL L1)
      else none
    | [] => none

/-- Lines 184-233: the layered segment classifier of `parse_edi_field`.
Layers in order: known 3-char numbered segments (substring), known 3-char
plain segments (substring), known 2-char segments (first occurrence
followed by a digit), pattern 2, pattern 3 reconciled against the known
sets, and finally `parse_field_code` as a last resort. -/
def classify (f : Chars) : Chars :=
  let u := upperL f
  match NUMBERED_SEGMENTS_3.find? (fun seg => containsSub u seg) with
  | some seg => seg
  | none =>
    match SEGMENTS_3.find? (fun seg => containsSub u seg) with
    | some seg => seg
    | none =>
      match SEGMENTS_2.find? (fun seg => seg2Check u seg) with
      | some seg => seg
      | none =>
        match pat2Segment f with
        | some seg => seg
        | none =>
          match pat3Candidate f with
          | some cand =>
            match (NUMBERED_SEGMENTS_3 ++ SEGMENTS_3).find? (fun seg => containsSub cand seg) with
            | some seg => seg
            | none =>
              match SEGMENTS_2.find? (fun seg => endsWithL cand seg || containsSub cand seg) with
              | some seg => seg
              | none => (parseFieldCodeL f).segment
          | none => (parseFieldCodeL f).segment

/-! ### `parse_edi_field`: search-term construction (lines 235-352) -/

/-- Lines 241-268: the `NM1` entity-identifier table keyed by substring
tests on the extracted loop id, in source order. -/
def nm1Pattern (loopId : Option Chars) : Chars :=
  match loopId with
  | some lid =>
    if containsSub lid "2010AA".data then "NM1*85*".data
    else if containsSub lid "2010AB".data then "NM1*87*".data
    else if containsSub lid "2010AC".data then "NM1*PE*".data
    else if containsSub lid "2010BA".data then "NM1*IL*".data
    else if containsSub lid "2010BB".data then "NM1*PR*".data
    else if containsSub lid "2010CA".data then "NM1*QC*".data
    else if containsSub lid "2310A".data then "NM1*DN*".data
    else if containsSub lid "2310B".data then "NM1*82*".data
    else if containsSub lid "2310C".data then "NM1*77*".data
    else if containsSub lid "2310D".data then "NM1*DQ*".data
    else if containsSub lid "2330".data then "NM1*".data
    else if containsSub lid "2420".data then "NM1*82*".data
    else "NM1*".data
  | none => "NM1*".data

/-- Lines 271-279: `HI` diagnosis-code pattern; a qualifier containing a
slash keeps its last slash-segment. -/
def hiPattern (q : Option Chars) : Chars :=
  match q with
  | some qual =>
    let hq := if containsSub qual ['/'] then stripL (lastSlashPart qual) else qual
    "HI*".data ++ hq
  | none => "HI*".data

/-- Lines 281-294: `DTP` date-qualifier pattern; `re.match(r'(\d+)', q)`
extracts the leading digit run of the qualifier, and a qualifier without
leading digits falls through to the bare pattern. -/
def dtpPattern (q : Option Chars) : Chars :=
  match q with
  | some qual =>
    if containsSub (upperL qual) "RD8".data then
      let d := qual.takeWhile isDigitC
      if d.isEmpty then "DTP*".data else "DTP*".data ++ d ++ "*RD8".data
    else
      let d := qual.takeWhile isDigitC
      if d.isEmpty then "DTP*".data else "DTP*".data ++ d ++ [ '*' ]
  | none => "DTP*".data

/-- Lines 296-303: `REF` pattern keyed by the loop id. -/
def refPattern (loopId : Option Chars) : Chars :=
  match loopId with
  | some lid =>
    if containsSub lid "2010AA".data then "REF*EI*".data
    else if containsSub lid "2310B".data then "REF*".data
    else "REF*".data
  | none => "REF*".data

/-- Lines 306-309: `LIN` pattern. -/
def linPattern (q : Option Chars) : Chars :=
  match q with
  | some qual => if containsSub (upperL qual) "N4".data then "LIN**N4*".data else "LIN*".data
  | none => "LIN*".data

/-- Lines 240-352: dispatch on the classified segment. -/
def buildSearchTerm (segment : Chars) (loopId : Option Chars) (qualifier : Option Chars) : Chars :=
  if segment = "NM1".data then nm1Pattern loopId
  else if segment = "HI".data then hiPattern qualifier
  else if segment = "DTP".data then dtpPattern qualifier
  else if segment = "REF".data then refPattern loopId
  else if segment = "LIN".data then linPattern qualifier
  else if segment = "N4".data then "N4*".data
  else if segment = "N3".data then "N3*".data
  else if segment = "PRV".data then "PRV*".data
  else if segment = "SV1".data ∨ segment = "SV2".data then segment ++ [ '*' ]
  else if segment = "LX".data then "LX*".data
  else if segment = "CTP".data then "CTP*".data
  else if segment = "DMG".data then "DMG*".data
  else if segment = "CN1".data then "CN1*".data
  else if segment = "CL1".data then "CL1*".data
  else if segment = "HCP".data then "HCP*".data
  else segment ++ [ '*' ]

/-- The normalised reference: field and qualifier after the strip,
compound-split and qualifier-extraction steps (lines 130-167). -/
def coreOf (input : Chars) : QualResult :=
  normalizeQual (compoundStep (stripL input))

/-- The segment id `parse_edi_field` classifies for an input. -/
def segmentOf (input : Chars) : Chars := classify (coreOf input).field

/-- The loop id `parse_edi_field` extracts for an input. -/
def loopOf (input : Chars) : Option Chars := loopIdOf (coreOf input).field

/-- The qualifier `parse_edi_field` extracts for an input. -/
def qualOf (input : Chars) : Option Chars := (coreOf input).qualifier

/-- The pipeline from the compound-split result to the final search term. -/
def resolveNoCompound (f1 : Chars) : Chars :=
  let r := normalizeQual f1
  buildSearchTerm (classify r.field) (loopIdOf r.field) r.qualifier

/-- `parse_edi_field` on character lists. -/
def parseEdiFieldL (input : Chars) : Chars :=
  resolveNoCompound (compoundStep (stripL input))

/-- `parse_edi_field` (src/main.py line 111). -/
def parse_edi_field (s : String) : String := String.mk (parseEdiFieldL s.data)

/-! ### The document verifier (spec §4.4) -/

/-- A segment-start boundary: a segment terminator or a line break. -/
def isBoundaryC (c : Char) : Bool := c == '~' || c == '\n' || c == '\r'

/-- Modelled from the spec: the Document Verifier of §4.4 is not part of
`src/` (the `search_and_highlight` of src/main.py lines 503-537 drives a
GUI search and returns `True` unconditionally), so its text-anchored check
is modelled from the spec's words.  `foundAnchored pat ok l` scans `l` for
an occurrence of `pat` that starts either at the start of the scan (when
`ok`, i.e. at start-of-text) or right after a boundary character. -/
def foundAnchored (pat : Chars) : Bool → Chars → Bool
  | _, [] => false
  | ok, c :: rest => (ok && startsWithL (c :: rest) pat) || foundAnchored pat (isBoundaryC c) rest

/-- Modelled from the spec: presence of a segment id in a document's raw
text — the segment tag anchored at start-of-text, after a segment
terminator or after a line break, and immediately followed by the field
delimiter `*`. -/
def segment_found_in_text (text seg : String) : Bool :=
  foundAnchored (seg.data ++ [ '*' ]) true text.data

/-- The anchored-occurrence property in the spec's words: the segment id,
immediately followed by the field delimiter, occurring either at the very
start of the text or immediately after a boundary character. -/
def AnchoredOccurrence (text seg : Chars) : Prop :=
  ∃ pre post, text = pre ++ seg ++ '*' :: post ∧
    (pre = [] ∨ ∃ pre' b, pre = pre' ++ [b] ∧ isBoundaryC b = true)

/-! ### Basic lemmas about the list primitives -/

theorem startsWithL_nil_pat (l : Chars) : startsWithL l [] = true := by
  cases l <;> rfl

theorem startsWithL_append_self (t rest : Chars) : startsWithL (t ++ rest) t = true := by
  induction t with
  | nil => exact startsWithL_nil_pat rest
  | cons a t ih => simp [startsWithL, ih]

theorem startsWithL_refl (t : Chars) : startsWithL t t = true := by
  have h := startsWithL_append_self t []
  rwa [List.append_nil] at h

theorem startsWithL_of_append {t rest s : Chars} (h : startsWithL (t ++ rest) s = true) :
    startsWithL t s = true ∨ startsWithL s t = true := by
  induction t generalizing s with
  | nil => exact Or.inr (startsWithL_nil_pat s)
  | cons a t ih =>
    cases s with
    | nil => exact Or.inl (startsWithL_nil_pat _)
    | cons b s =>
      simp only [List.cons_append, startsWithL, Bool.and_eq_true, beq_iff_eq] at h
      obtain ⟨rfl, h2⟩ := h
      rcases ih h2 with h3 | h3
      · exact Or.inl (by simp [startsWithL, h3])
      · exact Or.inr (by simp [startsWithL, h3])

theorem startsWithL_iff_exists {l p : Chars} :
    startsWithL l p = true ↔ ∃ post, l = p ++ post := by
  induction p generalizing l with
  | nil =>
    simp only [startsWithL_nil_pat, List.nil_append, true_iff]
    exact ⟨l, rfl⟩
  | cons b p ih =>
    cases l with
    | nil => simp [startsWithL]
    | cons a l =>
      simp only [startsWithL, Bool.and_eq_true, beq_iff_eq, ih]
      constructor
      · rintro ⟨rfl, post, rfl⟩; exact ⟨post, rfl⟩
      · rintro ⟨post, h⟩
        simp only [List.cons_append, List.cons.injEq] at h
        exact ⟨h.1, post, h.2⟩

theorem containsSub_iff_exists {l pat : Chars} :
    containsSub l pat = true ↔ ∃ x y, l = x ++ pat ++ y := by
  induction l with
  | nil =>
    simp only [containsSub, startsWithL_iff_exists]
    constructor
    · rintro ⟨post, h⟩
      exact ⟨[], post, h⟩
    · rintro ⟨x, y, h⟩
      obtain ⟨hxp, hy⟩ := List.append_eq_nil.mp h.symm
      obtain ⟨hx, hp⟩ := List.append_eq_nil.mp hxp
      exact ⟨[], by simp [hp]⟩
  | cons c t ih =>
    simp only [containsSub, Bool.or_eq_true, startsWithL_iff_exists, ih]
    constructor
    · rintro (⟨post, h⟩ | ⟨x, y, h⟩)
      · exact ⟨[], post, h⟩
      · exact ⟨c :: x, y, by simp [h]⟩
    · rintro ⟨x, y, h⟩
      cases x with
      | nil => exact Or.inl ⟨y, by simpa using h⟩
      | cons d x =>
        simp only [List.cons_append, List.cons.injEq] at h
        exact Or.inr ⟨x, y, h.2⟩

theorem startsWithL_length_le {l p : Chars} (h : startsWithL l p = true) :
    p.length ≤ l.length := by
  obtain ⟨post, rfl⟩ := startsWithL_iff_exists.mp h
  simp

theorem containsSub_length_le {l pat : Chars} (h : containsSub l pat = true) :
    pat.length ≤ l.length := by
  obtain ⟨x, y, rfl⟩ := containsSub_iff_exists.mp h
  simp; omega

theorem containsSub_eq_false_of_lt {l pat : Chars} (h : l.length < pat.length) :
    containsSub l pat = false := by
  cases hc : containsSub l pat
  · rfl
  · exact absurd (containsSub_length_le hc) (by omega)

/-! ### Character-class lemmas -/

theorem isDigitC_cases {c : Char} (h : isDigitC c = true) :
    c = '0' ∨ c = '1' ∨ c = '2' ∨ c = '3' ∨ c = '4' ∨
    c = '5' ∨ c = '6' ∨ c = '7' ∨ c = '8' ∨ c = '9' := by
  simp only [isDigitC, Bool.or_eq_true, beq_iff_eq] at h
  tauto

theorem isDigitC_not_ws {c : Char} (h : isDigitC c = true) : pyWhitespace c = false := by
  rcases isDigitC_cases h with rfl|rfl|rfl|rfl|rfl|rfl|rfl|rfl|rfl|rfl <;> decide

theorem isDigitC_toUpper {c : Char} (h : isDigitC c = true) : toUpperC c = c := by
  rcases isDigitC_cases h with rfl|rfl|rfl|rfl|rfl|rfl|rfl|rfl|rfl|rfl <;> decide

theorem beq_false_of_class {u c : Char} (h : isUpperC u = true) (hc : isUpperC c = false) :
    (u == c) = false := by
  cases hbe : u == c
  · rfl
  · rw [beq_iff_eq] at hbe; subst hbe; rw [h] at hc; cases hc

/-! ### Lemmas about strip and upper -/

theorem dropWhile_eq_self_of_all {p : Char → Bool} {l : Chars}
    (h : ∀ c ∈ l, p c = false) : l.dropWhile p = l := by
  cases l with
  | nil => rfl
  | cons c t => simp [List.dropWhile_cons, h c (List.mem_cons_self c t)]

theorem stripL_eq_self {l : Chars} (h : ∀ c ∈ l, pyWhitespace c = false) :
    stripL l = l := by
  unfold stripL
  rw [dropWhile_eq_self_of_all h,
      dropWhile_eq_self_of_all (fun c hc => h c (List.mem_reverse.mp hc)),
      List.reverse_reverse]

theorem upperL_eq_self {l : Chars} (h : ∀ c ∈ l, toUpperC c = c) : upperL l = l := by
  induction l with
  | nil => rfl
  | cons c t ih =>
    simp only [upperL, List.map_cons, h c (List.mem_cons_self c t)]
    rw [show List.map toUpperC t = t from ih (fun c hc => h c (List.mem_cons_of_mem _ hc))]

theorem mem_takeWhileC {p : Char → Bool} {c : Char} {l : Chars}
    (h : c ∈ l.takeWhile p) : p c = true := by
  induction l with
  | nil => cases h
  | cons a t ih =>
    by_cases hp : p a
    · rw [List.takeWhile_cons, if_pos hp] at h
      rcases List.mem_cons.mp h with rfl | hm
      · exact hp
      · exact ih hm
    · rw [List.takeWhile_cons, if_neg hp] at h
      cases h

theorem drop_length_takeWhile (p : Char → Bool) (l : Chars) :
    l.drop (l.takeWhile p).length = l.dropWhile p := by
  induction l with
  | nil => rfl
  | cons a t ih =>
    by_cases hp : p a
    · simp [List.takeWhile_cons, List.dropWhile_cons, hp, ih]
    · simp [List.takeWhile_cons, List.dropWhile_cons, hp]

theorem length_dropWhileC_le (p : Char → Bool) (l : Chars) :
    (l.dropWhile p).length ≤ l.length := by
  induction l with
  | nil => exact Nat.le_refl 0
  | cons a t ih =>
    rw [List.dropWhile_cons]
    by_cases hp : p a
    · rw [if_pos hp]
      exact Nat.le_trans ih (by simp)
    · rw [if_neg hp]

theorem length_takeWhileC_le (p : Char → Bool) (l : Chars) :
    (l.takeWhile p).length ≤ l.length := by
  induction l with
  | nil => exact Nat.le_refl 0
  | cons a t ih =>
    rw [List.takeWhile_cons]
    by_cases hp : p a
    · rw [if_pos hp]
      simpa using ih
    · rw [if_neg hp]
      simp

theorem stripL_length_le (l : Chars) : (stripL l).length ≤ l.length := by
  unfold stripL
  rw [List.length_reverse]
  exact Nat.le_trans (length_dropWhileC_le _ _)
    (by rw [List.length_reverse]; exact length_dropWhileC_le _ _)

/-! ### The numbered-segment layer of `parse_field_code` -/

theorem numRest_chars {rest E : Chars} {S : Option Chars}
    (h : numRest rest = some (E, S)) :
    ∀ c ∈ rest, isDigitC c = true ∨ c = '-' := by
  intro c hc
  unfold numRest at h
  by_cases he : (rest.takeWhile isDigitC).isEmpty
  · simp [he] at h
  · rw [if_neg he, drop_length_takeWhile] at h
    have hsplit : rest.takeWhile isDigitC ++ rest.dropWhile isDigitC = rest :=
      List.takeWhile_append_dropWhile isDigitC rest
    rcases hd : rest.dropWhile isDigitC with _ | ⟨d, t2⟩
    · rw [← hsplit, hd, List.append_nil] at hc
      exact Or.inl (mem_takeWhileC hc)
    · rw [hd] at h
      have hdm : d = '-' := by
        by_contra hne
        have : (match (d :: t2 : Chars) with
            | [] => some (rest.takeWhile isDigitC, none)
            | '-' :: t2 =>
              let S := t2.takeWhile isDigitC
              if S.isEmpty then none
              else if (t2.drop S.length).isEmpty then
                some (rest.takeWhile isDigitC, some S) else none
            | _ => none) = none := by
          rcases d with ⟨dv, hdv⟩
          simp only []
          split
          · simp_all
          · rename_i heq
            rw [List.cons.injEq] at heq
            exact absurd heq.1 hne
          · rfl
        rw [this] at h
        cases h
      subst hdm
      simp only [] at h
      by_cases hs : (t2.takeWhile isDigitC).isEmpty
      · simp [hs] at h
      · rw [if_neg hs] at h
        by_cases hs2 : (t2.drop (t2.takeWhile isDigitC).length).isEmpty
        · rw [drop_length_takeWhile] at hs2
          have ht2 : t2.takeWhile isDigitC ++ t2.dropWhile isDigitC = t2 :=
            List.takeWhile_append_dropWhile isDigitC t2
          rw [← hsplit, hd] at hc
          rcases List.mem_append.mp hc with h1 | h1
          · exact Or.inl (mem_takeWhileC h1)
          · rcases List.mem_cons.mp h1 with rfl | h2
            · exact Or.inr rfl
            · rw [← ht2] at h2
              rcases List.mem_append.mp h2 with h3 | h3
              · exact Or.inl (mem_takeWhileC h3)
              · rw [List.isEmpty_iff] at hs2
                rw [hs2] at h3
                cases h3
        · rw [if_neg hs2] at h
          cases h

theorem tryNumbered_eq {t : Chars} (L : List Chars) (rest E : Chars) (S : Option Chars)
    (hmem : t ∈ L)
    (hpf : ∀ s ∈ L, s = t ∨ (startsWithL t s = false ∧ startsWithL s t = false))
    (hnum : numRest rest = some (E, S)) :
    tryNumbered L (t ++ rest) = some (t, E, S) := by
  induction L with
  | nil => cases hmem
  | cons s L ih =>
    rcases hpf s (List.mem_cons_self s L) with rfl | ⟨hts, hst⟩
    · unfold tryNumbered
      rw [startsWithL_append_self, List.drop_left, hnum]
      simp
    · have hne : s ≠ t := by
        rintro rfl
        rw [startsWithL_refl s] at hst
        cases hst
      have hsw : startsWithL (t ++ rest) s = false := by
        cases hc : startsWithL (t ++ rest) s
        · rfl
        · rcases startsWithL_of_append hc with h1 | h1
          · rw [h1] at hts; cases hts
          · rw [h1] at hst; cases hst
      have hmem2 : t ∈ L := by
        rcases List.mem_cons.mp hmem with h | h
        · exact absurd h.symm hne
        · exact h
      unfold tryNumbered
      rw [hsw]
      simp only [Bool.false_eq_true, if_false]
      exact ih hmem2 (fun s2 hs2 => hpf s2 (List.mem_cons_of_mem _ hs2))

theorem parseFieldCode_tag {t : Chars} (rest E : Chars) (S : Option Chars)
    (hmem : t ∈ NUMBERED_SEGMENTS)
    (hpf : ∀ s ∈ NUMBERED_SEGMENTS, s = t ∨ (startsWithL t s = false ∧ startsWithL s t = false))
    (ht : ∀ c ∈ t, pyWhitespace c = false ∧ toUpperC c = c)
    (hnum : numRest rest = some (E, S)) :
    (parseFieldCodeL (t ++ rest)).segment = t := by
  have hchars := numRest_chars hnum
  have hrest : ∀ c ∈ rest, pyWhitespace c = false ∧ toUpperC c = c := by
    intro c hc
    rcases hchars c hc with hd | rfl
    · exact ⟨isDigitC_not_ws hd, isDigitC_toUpper hd⟩
    · exact ⟨by decide, by decide⟩
  have h1 : stripL (t ++ rest) = t ++ rest := by
    apply stripL_eq_self
    intro c hc
    rcases List.mem_append.mp hc with h | h
    · exact (ht c h).1
    · exact (hrest c h).1
  have h2 : upperL (t ++ rest) = t ++ rest := by
    apply upperL_eq_self
    intro c hc
    rcases List.mem_append.mp hc with h | h
    · exact (ht c h).2
    · exact (hrest c h).2
  simp only [parseFieldCodeL, h1, h2,
    tryNumbered_eq NUMBERED_SEGMENTS rest E S hmem hpf hnum]


/-! ### Appending a numeric suffix to a tag does not change substring matches -/

/-- Digit-or-dash characters: the characters of a numeric
`element(-subelement)` suffix. -/
def isDigitDash (c : Char) : Bool := isDigitC c || c == '-'

/-- `noStraddle p t seg` holds when no occurrence of `seg` in `t ++ ds`
can use a character of `ds`, for any `ds` whose characters all satisfy
`p`: the head of `seg` does not satisfy `p` (so no occurrence starts
inside `ds`), and no suffix of `t` is a prefix of `seg` whose remainder
is a nonempty run of `p`-characters (so no occurrence straddles the
boundary). -/
def noStraddle (p : Char → Bool) (t seg : Chars) : Bool :=
  (match seg with
   | [] => false
   | c :: _ => !p c) &&
  (List.range (t.length + 1)).all (fun j =>
    !(startsWithL seg (t.drop j)) ||
    (seg.drop (t.length - j)).isEmpty ||
    !((seg.drop (t.length - j)).all p))

theorem containsSub_append_stable {p : Char → Bool} {t seg ds : Chars}
    (hno : noStraddle p t seg = true) (hds : ∀ c ∈ ds, p c = true) :
    containsSub (t ++ ds) seg = containsSub t seg := by
  obtain ⟨hhead, hstr⟩ := Bool.and_eq_true _ _ |>.mp hno
  cases hc : containsSub t seg with
  | true =>
    obtain ⟨x, y, hxy⟩ := containsSub_iff_exists.mp hc
    exact containsSub_iff_exists.mpr ⟨x, y ++ ds, by rw [hxy]; simp⟩
  | false =>
    cases hc2 : containsSub (t ++ ds) seg with
    | false => rfl
    | true =>
      exfalso
      obtain ⟨x, y, hxy⟩ := containsSub_iff_exists.mp hc2
      have hxy2 : t ++ ds = x ++ (seg ++ y) := by rw [hxy, List.append_assoc]
      by_cases hA : x.length + seg.length ≤ t.length
      · -- the occurrence would lie entirely inside t
        have hn : (t.take (x.length + seg.length)).length = (x ++ seg).length := by
          simp [List.length_take]
          omega
        have heq : t.take (x.length + seg.length) ++
            (t.drop (x.length + seg.length) ++ ds) = (x ++ seg) ++ y := by
          rw [← List.append_assoc, List.take_append_drop, hxy, List.append_assoc]
        obtain ⟨h1, _⟩ := List.append_inj heq hn
        have : containsSub t seg = true := by
          apply containsSub_iff_exists.mpr
          refine ⟨x, t.drop (x.length + seg.length), ?_⟩
          rw [← h1, List.take_append_drop]
        rw [this] at hc
        cases hc
      · by_cases hB : x.length ≤ t.length
        · -- the occurrence would straddle the boundary
          have hk : t.length - x.length < seg.length := by omega
          have hn : (t.take x.length).length = x.length := by
            simp [List.length_take]
            omega
          have heq : t.take x.length ++ (t.drop x.length ++ ds) = x ++ (seg ++ y) := by
            rw [← List.append_assoc, List.take_append_drop, hxy2]
          obtain ⟨_, h2⟩ := List.append_inj heq hn
          have hn2 : (t.drop x.length).length = (seg.take (t.length - x.length)).length := by
            simp [List.length_take, List.length_drop]
            omega
          have heq2 : t.drop x.length ++ ds =
              seg.take (t.length - x.length) ++ (seg.drop (t.length - x.length) ++ y) := by
            rw [← List.append_assoc, List.take_append_drop]
            exact h2
          obtain ⟨h3, h4⟩ := List.append_inj heq2 hn2
          have hsw : startsWithL seg (t.drop x.length) = true := by
            apply startsWithL_iff_exists.mpr
            exact ⟨seg.drop (t.length - x.length), by rw [h3, List.take_append_drop]⟩
          have hall : (seg.drop (t.length - x.length)).all p = true := by
            rw [List.all_eq_true]
            intro c hcm
            exact hds c (by rw [h4]; exact List.mem_append.mpr (Or.inl hcm))
          have hj := List.all_eq_true.mp hstr x.length
            (List.mem_range.mpr (by omega))
          rw [hsw, hall] at hj
          simp at hj
          omega
        · -- the occurrence would start inside ds
          obtain ⟨c, seg', rfl⟩ : ∃ c seg', seg = c :: seg' := by
            cases seg with
            | nil => cases hhead
            | cons c seg' => exact ⟨c, seg', rfl⟩
          have hpc : p c = false := by simpa using hhead
          have hn : t.length = (x.take t.length).length := by
            simp [List.length_take]
            omega
          have heq : t ++ ds = x.take t.length ++ (x.drop t.length ++ (c :: seg' ++ y)) := by
            rw [← List.append_assoc, List.take_append_drop, hxy2]
          obtain ⟨_, h2⟩ := List.append_inj heq hn
          have hcm : c ∈ ds := by
            rw [h2]
            exact List.mem_append.mpr (Or.inr (List.mem_append.mpr
              (Or.inl (List.mem_cons_self c seg'))))
          rw [hds c hcm] at hpc
          cases hpc

/-! ### Facts about numeric suffixes and the classification layers -/

theorem isDigitDash_props {c : Char} (h : isDigitDash c = true) :
    pyWhitespace c = false ∧ toUpperC c = c ∧ isAlphaSlashC c = false := by
  rcases (by simpa [isDigitDash, Bool.or_eq_true, beq_iff_eq] using h :
      isDigitC c = true ∨ c = '-') with hd | rfl
  · refine ⟨isDigitC_not_ws hd, isDigitC_toUpper hd, ?_⟩
    rcases isDigitC_cases hd with rfl|rfl|rfl|rfl|rfl|rfl|rfl|rfl|rfl|rfl <;> decide
  · exact ⟨by decide, by decide, by decide⟩

theorem numRest_digitDash {rest E : Chars} {S : Option Chars}
    (h : numRest rest = some (E, S)) : ∀ c ∈ rest, isDigitDash c = true := by
  intro c hc
  rcases numRest_chars h c hc with hd | rfl
  · simp [isDigitDash, hd]
  · simp [isDigitDash]

theorem numRest_ne_nil {rest E : Chars} {S : Option Chars}
    (h : numRest rest = some (E, S)) : rest ≠ [] := by
  intro h0
  subst h0
  simp [numRest] at h

theorem numRest_head_digit {rest E : Chars} {S : Option Chars}
    (h : numRest rest = some (E, S)) :
    ∃ d t', rest = d :: t' ∧ isDigitC d = true := by
  cases hr : rest with
  | nil => exact absurd hr (numRest_ne_nil h)
  | cons d t' =>
    refine ⟨d, t', rfl, ?_⟩
    by_cases hd : isDigitC d = true
    · exact hd
    · exfalso
      rw [hr] at h
      unfold numRest at h
      by_cases he : ((d :: t').takeWhile isDigitC).isEmpty = true
      · simp only [he, if_true] at h
        cases h
      · exact he (by rw [List.takeWhile_cons, if_neg hd]; rfl)

theorem findSubL_eq_none {pat l : Chars} (h : containsSub l pat = false) :
    findSubL pat l = none := by
  induction l with
  | nil =>
    unfold containsSub at h
    unfold findSubL
    rw [h]
    rfl
  | cons c t ih =>
    unfold containsSub at h
    obtain ⟨h1, h2⟩ := by simpa [Bool.or_eq_true] using h
    unfold findSubL
    rw [h1, ih h2]
    rfl

theorem findSubL_append_self {t : Chars} (ds : Chars) (hne : t ≠ []) :
    findSubL t (t ++ ds) = some 0 := by
  cases t with
  | nil => cases hne rfl
  | cons c t' =>
    have hsw : startsWithL (c :: (t' ++ ds)) (c :: t') = true := by
      have := startsWithL_append_self (c :: t') ds
      rwa [List.cons_append] at this
    rw [List.cons_append]
    unfold findSubL
    rw [hsw]
    rfl

theorem seg2Check_of_not_contains {u seg : Chars} (h : containsSub u seg = false) :
    seg2Check u seg = false := by
  unfold seg2Check
  rw [findSubL_eq_none h]

theorem seg2Check_append_self {t : Chars} {d : Char} (ds' : Chars)
    (htne : t ≠ []) (hd : isDigitC d = true) :
    seg2Check (t ++ d :: ds') t = true := by
  have hdrop : (t ++ d :: ds').drop (0 + t.length) = d :: ds' := by
    rw [Nat.zero_add]
    exact List.drop_left t (d :: ds')
  unfold seg2Check
  rw [findSubL_append_self (d :: ds') htne]
  show (match (t ++ d :: ds').drop (0 + t.length) with
        | c :: _ => isDigitC c
        | [] => false) = true
  rw [hdrop]
  exact hd

theorem hiAttached_append_none {x ds : Chars} (hne : ds ≠ [])
    (hds : ∀ c ∈ ds, isAlphaSlashC c = false) :
    hiAttached (x ++ ds) = none := by
  unfold hiAttached
  rcases hrev : ds.reverse with _ | ⟨c, r⟩
  · exact absurd (by simpa using congrArg List.reverse hrev) hne
  · have hc : c ∈ ds := List.mem_reverse.mp (by rw [hrev]; exact List.mem_cons_self c r)
    have hx : (x ++ ds).reverse = c :: (r ++ x.reverse) := by
      rw [List.reverse_append, hrev]
      rfl
    simp [hx, List.takeWhile_cons, hds c hc]

theorem extractQual_id {f : Chars} (h1 : containsSub f ddSep = false)
    (h2 : containsSub f sdSep = false) (h3 : containsSub f spSep = false) :
    extractQual f = ⟨f, none, none⟩ := by
  simp [extractQual, h1, h2, h3]

theorem findSubL_some_of_contains {pat l : Chars} (h : containsSub l pat = true) :
    ∃ i, findSubL pat l = some i ∧ i + pat.length ≤ l.length := by
  induction l with
  | nil =>
    unfold containsSub at h
    refine ⟨0, ?_, ?_⟩
    · unfold findSubL
      simp [h]
    · simpa using startsWithL_length_le h
  | cons c t ih =>
    by_cases hsw : startsWithL (c :: t) pat = true
    · refine ⟨0, ?_, by simpa using startsWithL_length_le hsw⟩
      unfold findSubL
      simp [hsw]
    · have h2 : containsSub t pat = true := by
        unfold containsSub at h
        rcases Bool.or_eq_true _ _ |>.mp h with h | h
        · exact absurd h hsw
        · exact h
      obtain ⟨i, hfind, hbound⟩ := ih h2
      rw [Bool.not_eq_true] at hsw
      refine ⟨i + 1, ?_, by simp; omega⟩
      unfold findSubL
      simp [hsw, hfind]

/-- A match of `re.search(r' -([A-Za-z/]+)', f)` implies the field
contains the two-character prefix `" -"` of the pattern. -/
theorem dashQualSearch_some_contains :
    ∀ {f run : Chars}, dashQualSearch f = some run → containsSub f spSep = true := by
  intro f
  induction f with
  | nil => intro run h; cases h
  | cons c t ih =>
    intro run h
    unfold dashQualSearch at h
    split at h
    next rest heq =>
      obtain ⟨rfl, rfl⟩ : c = ' ' ∧ t = '-' :: rest := by
        rw [List.cons.injEq] at heq
        exact ⟨heq.1, heq.2⟩
      show containsSub (' ' :: '-' :: rest) spSep = true
      simp [containsSub, startsWithL, spSep, startsWithL_nil_pat]
    next hd tl hcon heq =>
      obtain ⟨rfl, rfl⟩ : c = hd ∧ t = tl := by
        rw [List.cons.injEq] at heq
        exact ⟨heq.1, heq.2⟩
      have h2 := ih h
      have hcc : containsSub (c :: t) spSep =
          (startsWithL (c :: t) spSep || containsSub t spSep) := rfl
      rw [hcc, h2, Bool.or_true]
    next heq => cases h

/-- An attached-HI match strictly shortens the field: the result's field
is a proper prefix of the input (the trailing `-qualifier` is removed). -/
theorem hiAttached_some_shorter {f nf q : Chars}
    (h : hiAttached f = some (nf, q)) : nf.length < f.length := by
  simp only [hiAttached] at h
  by_cases he : (f.reverse.takeWhile isAlphaSlashC).isEmpty
  · rw [if_pos he] at h
    cases h
  · rw [if_neg he] at h
    have hq1 : 1 ≤ (f.reverse.takeWhile isAlphaSlashC).length := by
      cases hc : f.reverse.takeWhile isAlphaSlashC with
      | nil => rw [hc] at he; exact absurd rfl he
      | cons a t2 => simp
    have hqle : (f.reverse.takeWhile isAlphaSlashC).length ≤ f.length := by
      have h0 := length_takeWhileC_le isAlphaSlashC f.reverse
      simpa using h0
    have hnf : nf = f.take (f.length - (f.reverse.takeWhile isAlphaSlashC).length - 1) := by
      split at h
      next r2 heq2 =>
        by_cases h2 : (r2.takeWhile isDigitC).isEmpty
        · rw [if_pos h2] at h
          cases h
        · rw [if_neg h2] at h
          split at h
          next r3 heq3 =>
            by_cases h3 : (r3.takeWhile isDigitC).isEmpty
            · rw [if_pos h3] at h
              cases h
            · rw [if_neg h3] at h
              split at h
              next i hh rest heq4 =>
                by_cases h4 : (toUpperC i == 'I' && toUpperC hh == 'H') = true
                · rw [if_pos h4] at h
                  have h5 := Option.some.inj h
                  rw [Prod.mk.injEq] at h5
                  exact h5.1.symm
                · rw [if_neg h4] at h
                  cases h
              next heq4 => cases h
          next heq3 => cases h
      next heq2 => cases h
    rw [hnf]
    simp only [List.length_take]
    omega

/-- The normalisation step can only shorten the extracted field. -/
theorem normalizeQual_field_length (f : Chars) :
    (normalizeQual f).field.length ≤ (extractQual f).field.length := by
  simp only [normalizeQual]
  split
  · rcases hhi : hiAttached (extractQual f).field with _ | ⟨nf, qq⟩
    · simp [hhi]
    · simp only [hhi]
      exact Nat.le_of_lt (hiAttached_some_shorter hhi)
  · exact Nat.le_refl _

theorem stripTake_length_lt {f : Chars} {i k : Nat} (hk : 0 < k)
    (hbound : i + k ≤ f.length) : (stripL (f.take i)).length < f.length := by
  have h1 := stripL_length_le (f.take i)
  have h2 : (f.take i).length = min i f.length := List.length_take i f
  omega

theorem find?_congr_pred {p q : Chars → Bool} :
    ∀ L : List Chars, (∀ s ∈ L, p s = q s) → L.find? p = L.find? q := by
  intro L h
  induction L with
  | nil => rfl
  | cons a L ih =>
    have ha := h a (List.mem_cons_self a L)
    cases hq : q a
    · simp [List.find?_cons, ha, hq, ih (fun s hs => h s (List.mem_cons_of_mem a hs))]
    · simp [List.find?_cons, ha, hq]

theorem find?_append_first {p : Chars → Bool} (t : Chars) :
    ∀ (L1 : List Chars) (L2 : List Chars), (∀ s ∈ L1, p s = false) → p t = true →
      (L1 ++ t :: L2).find? p = some t := by
  intro L1 L2 h1 ht
  induction L1 with
  | nil => simp [List.find?_cons, ht]
  | cons a L ih =>
    simp [List.find?_cons, h1 a (List.mem_cons_self a L),
      ih (fun s hs => h1 s (List.mem_cons_of_mem a hs))]

theorem dropWhile_mem_split {t : Chars} :
    ∀ L : List Chars, t ∈ L →
      ∃ L2, L.dropWhile (fun s => !(s == t)) = t :: L2 := by
  intro L hm
  induction L with
  | nil => cases hm
  | cons a L ih =>
    by_cases ha : a = t
    · subst ha
      exact ⟨L, by simp [List.dropWhile_cons]⟩
    · have hpa : (!(a == t)) = true := by simp [ha]
      rw [List.dropWhile_cons, if_pos hpa]
      exact ih (by rcases List.mem_cons.mp hm with h | h
                   · exact absurd h.symm ha
                   · exact h)

/-! ### The free-text numbered-segment property, tag by tag -/

/-- Side conditions common to every free-text tag: its characters survive
strip and upper unchanged, and no qualifier or compound separator can
occur in the tag or straddle into a numeric suffix. -/
def tagCommonOK (t : Chars) : Bool :=
  t.all (fun c => !pyWhitespace c && (toUpperC c == c)) &&
  !containsSub t ddSep && !containsSub t sdSep &&
  !containsSub t spSep && !containsSub t plusSep &&
  noStraddle isDigitDash t ddSep && noStraddle isDigitDash t sdSep &&
  noStraddle isDigitDash t spSep && noStraddle isDigitDash t plusSep

/-- Side conditions for a tag found by the first classifier layer of
`parse_edi_field` (`NUMBERED_SEGMENTS_3`). -/
def numbered3TagOK (t : Chars) : Bool :=
  tagCommonOK t &&
  (NUMBERED_SEGMENTS_3.find? (fun seg => containsSub t seg) == some t) &&
  NUMBERED_SEGMENTS_3.all (fun seg => noStraddle isDigitDash t seg)

/-- Side conditions for a two-letter tag found by the third classifier
layer of `parse_edi_field` (`SEGMENTS_2` with a digit-anchored check). -/
def seg2TagOK (t : Chars) : Bool :=
  tagCommonOK t && !t.isEmpty &&
  (NUMBERED_SEGMENTS_3.find? (fun seg => containsSub t seg) == none) &&
  NUMBERED_SEGMENTS_3.all (fun seg => noStraddle isDigitDash t seg) &&
  (SEGMENTS_3.find? (fun seg => containsSub t seg) == none) &&
  SEGMENTS_3.all (fun seg => noStraddle isDigitDash t seg) &&
  t ∈ SEGMENTS_2 &&
  (SEGMENTS_2.takeWhile (fun s => !(s == t))).all
    (fun s => !containsSub t s && noStraddle isDigitDash t s)

theorem coreOf_append_numeric {t rest : Chars}
    (hch : ∀ c ∈ rest, isDigitDash c = true) (hne : rest ≠ [])
    (ht : ∀ c ∈ t, pyWhitespace c = false ∧ toUpperC c = c)
    (hdd : containsSub (t ++ rest) ddSep = false)
    (hsd : containsSub (t ++ rest) sdSep = false)
    (hsp : containsSub (t ++ rest) spSep = false)
    (hpl : containsSub (t ++ rest) plusSep = false) :
    coreOf (t ++ rest) = ⟨t ++ rest, none, none⟩ := by
  have hstrip : stripL (t ++ rest) = t ++ rest := by
    apply stripL_eq_self
    intro c hc
    rcases List.mem_append.mp hc with h | h
    · exact (ht c h).1
    · exact (isDigitDash_props (hch c h)).1
  have hcomp : compoundStep (stripL (t ++ rest)) = t ++ rest := by
    unfold compoundStep
    rw [hstrip]
    simp [hpl]
  have hex : extractQual (t ++ rest) = ⟨t ++ rest, none, none⟩ :=
    extractQual_id hdd hsd hsp
  have hhi : hiAttached (t ++ rest) = none :=
    hiAttached_append_none hne (fun c hc => (isDigitDash_props (hch c hc)).2.2)
  unfold coreOf
  rw [hcomp]
  unfold normalizeQual
  rw [hex]
  by_cases hg : containsSub (upperL (t ++ rest)) "HI".data = true
  · simp [hg, hhi]
  · simp only [Bool.not_eq_true] at hg
    simp [hg]

theorem segmentOf_append_numbered3 {t : Chars} (rest E : Chars) (S : Option Chars)
    (hnum : numRest rest = some (E, S)) (hok : numbered3TagOK t = true) :
    segmentOf (t ++ rest) = t := by
  obtain ⟨⟨hcom, hfind⟩, hno1⟩ :
      (tagCommonOK t = true ∧
        (NUMBERED_SEGMENTS_3.find? (fun seg => containsSub t seg) == some t) = true) ∧
      NUMBERED_SEGMENTS_3.all (fun seg => noStraddle isDigitDash t seg) = true := by
    simpa [numbered3TagOK, Bool.and_eq_true] using hok
  obtain ⟨⟨⟨⟨⟨⟨⟨⟨htc, hdd0⟩, hsd0⟩, hsp0⟩, hpl0⟩, hnodd⟩, hnosd⟩, hnosp⟩, hnopl⟩ :
      ((((((((t.all (fun c => !pyWhitespace c && (toUpperC c == c)) = true ∧
        (!containsSub t ddSep) = true) ∧ (!containsSub t sdSep) = true) ∧
        (!containsSub t spSep) = true) ∧ (!containsSub t plusSep) = true) ∧
        noStraddle isDigitDash t ddSep = true) ∧ noStraddle isDigitDash t sdSep = true) ∧
        noStraddle isDigitDash t spSep = true) ∧ noStraddle isDigitDash t plusSep = true) := by
    simpa [tagCommonOK, Bool.and_eq_true] using hcom
  have hch := numRest_digitDash hnum
  have ht : ∀ c ∈ t, pyWhitespace c = false ∧ toUpperC c = c := by
    intro c hc
    have := List.all_eq_true.mp htc c hc
    obtain ⟨h1, h2⟩ := Bool.and_eq_true _ _ |>.mp this
    exact ⟨by simpa using h1, by simpa using h2⟩
  have hdd : containsSub (t ++ rest) ddSep = false := by
    rw [containsSub_append_stable hnodd hch]
    simpa using hdd0
  have hsd : containsSub (t ++ rest) sdSep = false := by
    rw [containsSub_append_stable hnosd hch]
    simpa using hsd0
  have hsp : containsSub (t ++ rest) spSep = false := by
    rw [containsSub_append_stable hnosp hch]
    simpa using hsp0
  have hpl : containsSub (t ++ rest) plusSep = false := by
    rw [containsSub_append_stable hnopl hch]
    simpa using hpl0
  have hcore := coreOf_append_numeric hch (numRest_ne_nil hnum) ht hdd hsd hsp hpl
  have hup : upperL (t ++ rest) = t ++ rest := by
    apply upperL_eq_self
    intro c hc
    rcases List.mem_append.mp hc with h | h
    · exact (ht c h).2
    · exact (isDigitDash_props (hch c h)).2.1
  have hl1 : NUMBERED_SEGMENTS_3.find?
      (fun seg => containsSub (upperL (t ++ rest)) seg) = some t := by
    rw [hup,
      find?_congr_pred NUMBERED_SEGMENTS_3
        (fun s hs => containsSub_append_stable (List.all_eq_true.mp hno1 s hs) hch)]
    simpa using hfind
  have hfield : (coreOf (t ++ rest)).field = t ++ rest := by rw [hcore]
  unfold segmentOf
  rw [hfield]
  simp only [classify, hl1]

theorem segmentOf_append_seg2 {t : Chars} (rest E : Chars) (S : Option Chars)
    (hnum : numRest rest = some (E, S)) (hok : seg2TagOK t = true) :
    segmentOf (t ++ rest) = t := by
  obtain ⟨⟨⟨⟨⟨⟨⟨hcom, htne⟩, hf1⟩, hno1⟩, hf2⟩, hno2⟩, hmem⟩, hbefore⟩ :
      ((((((tagCommonOK t = true ∧ (!t.isEmpty) = true) ∧
        (NUMBERED_SEGMENTS_3.find? (fun seg => containsSub t seg) == none) = true) ∧
        NUMBERED_SEGMENTS_3.all (fun seg => noStraddle isDigitDash t seg) = true) ∧
        (SEGMENTS_3.find? (fun seg => containsSub t seg) == none) = true) ∧
        SEGMENTS_3.all (fun seg => noStraddle isDigitDash t seg) = true) ∧
        t ∈ SEGMENTS_2) ∧
      (SEGMENTS_2.takeWhile (fun s => !(s == t))).all
        (fun s => !containsSub t s && noStraddle isDigitDash t s) = true := by
    simpa [seg2TagOK, Bool.and_eq_true, decide_eq_true_eq] using hok
  obtain ⟨⟨⟨⟨⟨⟨⟨⟨htc, hdd0⟩, hsd0⟩, hsp0⟩, hpl0⟩, hnodd⟩, hnosd⟩, hnosp⟩, hnopl⟩ :
      ((((((((t.all (fun c => !pyWhitespace c && (toUpperC c == c)) = true ∧
        (!containsSub t ddSep) = true) ∧ (!containsSub t sdSep) = true) ∧
        (!containsSub t spSep) = true) ∧ (!containsSub t plusSep) = true) ∧
        noStraddle isDigitDash t ddSep = true) ∧ noStraddle isDigitDash t sdSep = true) ∧
        noStraddle isDigitDash t spSep = true) ∧ noStraddle isDigitDash t plusSep = true) := by
    simpa [tagCommonOK, Bool.and_eq_true] using hcom
  have hch := numRest_digitDash hnum
  have ht : ∀ c ∈ t, pyWhitespace c = false ∧ toUpperC c = c := by
    intro c hc
    have := List.all_eq_true.mp htc c hc
    obtain ⟨h1, h2⟩ := Bool.and_eq_true _ _ |>.mp this
    exact ⟨by simpa using h1, by simpa using h2⟩
  have hdd : containsSub (t ++ rest) ddSep = false := by
    rw [containsSub_append_stable hnodd hch]
    simpa using hdd0
  have hsd : containsSub (t ++ rest) sdSep = false := by
    rw [containsSub_append_stable hnosd hch]
    simpa using hsd0
  have hsp : containsSub (t ++ rest) spSep = false := by
    rw [containsSub_append_stable hnosp hch]
    simpa using hsp0
  have hpl : containsSub (t ++ rest) plusSep = false := by
    rw [containsSub_append_stable hnopl hch]
    simpa using hpl0
  have hcore := coreOf_append_numeric hch (numRest_ne_nil hnum) ht hdd hsd hsp hpl
  have hup : upperL (t ++ rest) = t ++ rest := by
    apply upperL_eq_self
    intro c hc
    rcases List.mem_append.mp hc with h | h
    · exact (ht c h).2
    · exact (isDigitDash_props (hch c h)).2.1
  have hl1 : NUMBERED_SEGMENTS_3.find?
      (fun seg => containsSub (upperL (t ++ rest)) seg) = none := by
    rw [hup,
      find?_congr_pred NUMBERED_SEGMENTS_3
        (fun s hs => containsSub_append_stable (List.all_eq_true.mp hno1 s hs) hch)]
    simpa using hf1
  have hl2 : SEGMENTS_3.find?
      (fun seg => containsSub (upperL (t ++ rest)) seg) = none := by
    rw [hup,
      find?_congr_pred SEGMENTS_3
        (fun s hs => containsSub_append_stable (List.all_eq_true.mp hno2 s hs) hch)]
    simpa using hf2
  obtain ⟨L2, hsplit⟩ := dropWhile_mem_split SEGMENTS_2 hmem
  have hseg2eq : SEGMENTS_2 = SEGMENTS_2.takeWhile (fun s => !(s == t)) ++ t :: L2 := by
    rw [← hsplit, List.takeWhile_append_dropWhile]
  obtain ⟨d, rest', hrest, hd⟩ := numRest_head_digit hnum
  have hl3 : SEGMENTS_2.find? (fun seg => seg2Check (upperL (t ++ rest)) seg) = some t := by
    rw [hup, hseg2eq]
    apply find?_append_first
    · intro s hs
      obtain ⟨hc0, hno0⟩ := Bool.and_eq_true _ _ |>.mp
        (List.all_eq_true.mp hbefore s hs)
      apply seg2Check_of_not_contains
      rw [containsSub_append_stable hno0 hch]
      simpa using hc0
    · rw [hrest]
      exact seg2Check_append_self rest' (by simpa using htne) hd
  have hfield : (coreOf (t ++ rest)).field = t ++ rest := by rw [hcore]
  unfold segmentOf
  rw [hfield]
  simp only [classify, hl1, hl2, hl3]

/-! ### Claim-side definitions -/

/-- The numbered-segment tag set named by the spec (§4.2 layer 1): the
`parse_field_code` table without `N1`-`N4`. -/
def claimNumberedTags : List Chars :=
  ["NM1", "SV1", "SV2", "SV3", "SV4", "SV5", "HI", "HL", "K3", "G1", "G2",
   "G3", "LX", "SE", "ST", "GS", "GE", "ISA", "IEA", "TA1"].map String.data

/-- The spec's numbered-segment tag set without `ISA` and `IEA` (the two
tags the free-text path classifies through the generic layer instead). -/
def freeTextNumberedTags : List Chars :=
  ["NM1", "SV1", "SV2", "SV3", "SV4", "SV5", "HI", "HL", "K3", "G1", "G2",
   "G3", "LX", "SE", "ST", "GS", "GE", "TA1"].map String.data

/-- The spec's `SegmentId` shape: a 2-4 character uppercase alphanumeric tag. -/
def isValidTagShape (l : Chars) : Bool :=
  decide (2 ≤ l.length) && decide (l.length ≤ 4) &&
    l.all (fun c => isUpperC c || isDigitC c)

/-! ### Claim C10 -/

/-- C10: on every branch of `parse_field_code`, including the final
fallback, the returned search term is exactly the returned segment
followed by the single character `*`. -/
theorem parse_field_code_search_term (s : Chars) :
    (parseFieldCodeL s).searchTerm = (parseFieldCodeL s).segment ++ [ '*' ] := by
  simp only [parseFieldCodeL]
  split
  · rfl
  · split
    · rfl
    · rfl

/-! ### Claim C4 -/

/-- C4 counterexample: classification never fails and the pattern for the
unrecognised token `"HELLO WORLD"` is built from that token itself, whose
head is not a 2-4 character uppercase alphanumeric registry tag. -/
theorem unresolved_counterexample :
    parseEdiFieldL "HELLO WORLD".data = "HELLO WORLD*".data ∧
    (parseFieldCodeL "HELLO WORLD".data).segment = "HELLO WORLD".data ∧
    isValidTagShape "HELLO WORLD".data = false := by decide

/-- C4 amended: when no classifier rule layer matches, classification does
not return `None`; the final fallback of `parse_field_code` uses the whole
cleaned token as the segment, and the emitted pattern is that token
followed by `*` (so a pattern can be built from an unrecognised token). -/
theorem fallback_uses_whole_token :
    (∀ s : Chars, tryNumbered NUMBERED_SEGMENTS (upperL (stripL s)) = none →
      simpleSegment (upperL (stripL s)) = none →
      parseFieldCodeL s = ⟨upperL (stripL s), [], none, upperL (stripL s) ++ [ '*' ]⟩) ∧
    parseEdiFieldL "HELLO WORLD".data = "HELLO WORLD*".data := by
  constructor
  · intro s h1 h2
    simp only [parseFieldCodeL, h1, h2]
  · decide

/-- C4 witness: the fallback theorem applied at the concrete unrecognised
token `"HELLO WORLD"`. -/
theorem fallback_uses_whole_token_witness :
    parseFieldCodeL "HELLO WORLD".data =
      ⟨"HELLO WORLD".data, [], none, "HELLO WORLD*".data⟩ := by
  have h := fallback_uses_whole_token.1 "HELLO WORLD".data (by decide) (by decide)
  rw [h]
  decide

/-! ### Claim C2 -/

/-- C2 counterexample: `ISA16` in the free-text path classifies as `ISA1`
(via the generic layer), not as `ISA`, while the direct field-code path
returns `ISA` — so the numbered-segment property fails in the free-text
path. -/
theorem numbered_layer_counterexample :
    segmentOf "ISA16".data = "ISA1".data ∧
    ¬ segmentOf "ISA16".data = "ISA".data ∧
    (parseFieldCodeL "ISA16".data).segment = "ISA".data ∧
    parseEdiFieldL "ISA16".data = "ISA1*".data := by decide

/-- C2 amended: for a tag of the spec's numbered-segment set followed by a
numeric `element(-subelement)` suffix, the direct field-code path always
classifies the tag itself; the free-text path does the same for every tag
of the set except `ISA` and `IEA` (whose free-text classification goes
through the generic layer). -/
theorem numbered_segment_classification :
    (∀ t ∈ claimNumberedTags, ∀ rest E S, numRest rest = some (E, S) →
      (parseFieldCodeL (t ++ rest)).segment = t) ∧
    (∀ t ∈ freeTextNumberedTags, ∀ rest E S, numRest rest = some (E, S) →
      segmentOf (t ++ rest) = t) := by
  constructor
  · intro t ht rest E S h
    fin_cases ht <;>
      exact parseFieldCode_tag rest E S (by decide) (by decide) (by decide) h
  · intro t ht rest E S h
    fin_cases ht <;>
      first
        | exact segmentOf_append_numbered3 rest E S h (by decide)
        | exact segmentOf_append_seg2 rest E S h (by decide)

/-- C2 witness: the amended theorem applied at `ISA16` (direct path) and
`HI01` (free-text path). -/
theorem numbered_segment_classification_witness :
    (parseFieldCodeL ("ISA".data ++ "16".data)).segment = "ISA".data ∧
    segmentOf ("HI".data ++ "01".data) = "HI".data :=
  ⟨numbered_segment_classification.1 "ISA".data (by decide) "16".data "16".data none (by decide),
   numbered_segment_classification.2 "HI".data (by decide) "01".data "01".data none (by decide)⟩

/-! ### Claim C1 -/

/-- Written from the claim's words: the static `NM1` loop-id table — a
loop id containing `2010AA` yields `NM1*85*`, …, `2310B` or `2420` yields
`NM1*82*`, `2330` yields the bare `NM1*`, and absence of any matching loop
id yields the bare `NM1*`. -/
def nm1SpecTable (loopId : Option Chars) : Chars :=
  match loopId with
  | some lid =>
    if containsSub lid "2010AA".data then "NM1*85*".data
    else if containsSub lid "2010AB".data then "NM1*87*".data
    else if containsSub lid "2010AC".data then "NM1*PE*".data
    else if containsSub lid "2010BA".data then "NM1*IL*".data
    else if containsSub lid "2010BB".data then "NM1*PR*".data
    else if containsSub lid "2010CA".data then "NM1*QC*".data
    else if containsSub lid "2310A".data then "NM1*DN*".data
    else if containsSub lid "2310B".data || containsSub lid "2420".data then "NM1*82*".data
    else if containsSub lid "2310C".data then "NM1*77*".data
    else if containsSub lid "2310D".data then "NM1*DQ*".data
    else if containsSub lid "2330".data then "NM1*".data
    else "NM1*".data
  | none => "NM1*".data

/-- The shape of every extracted loop id: four digits followed by at most
two uppercase letters. -/
def wellFormedLoop (l : Chars) : Bool :=
  match l with
  | a :: b :: c :: d :: ls =>
    isDigitC a && isDigitC b && isDigitC c && isDigitC d &&
      decide (ls.length ≤ 2) && ls.all isUpperC
  | _ => false

theorem upper_beq_digit_false {u c : Char} (hu : isUpperC u = true)
    (hc : isDigitC c = true) : (u == c) = false := by
  apply beq_false_of_class hu
  rcases isDigitC_cases hc with rfl|rfl|rfl|rfl|rfl|rfl|rfl|rfl|rfl|rfl <;> decide

theorem loopIdOf_wellFormed {f l : Chars} (h : loopIdOf f = some l) :
    wellFormedLoop l = true := by
  unfold loopIdOf at h
  split at h
  next a b c d rest =>
    split at h
    next hd =>
      obtain rfl := Option.some.inj h
      simp only [Bool.and_eq_true] at hd
      simp only [wellFormedLoop, Bool.and_eq_true, List.all_eq_true, decide_eq_true_eq]
      exact ⟨⟨⟨⟨⟨hd.1.1.1, hd.1.1.2⟩, hd.1.2⟩, hd.2⟩, List.length_take_le 2 _⟩,
        fun x hx => mem_takeWhileC (List.mem_of_mem_take hx)⟩
    next => cases h
  next => cases h



theorem nm1_agree (l : Chars) (h : wellFormedLoop l = true) :
    nm1Pattern (some l) = nm1SpecTable (some l) := by
  by_cases h24 : containsSub l "2420".data = true
  case neg =>
    simp only [Bool.not_eq_true] at h24
    simp [nm1Pattern, nm1SpecTable, h24]
  case pos =>
    rcases l with _ | ⟨a, _ | ⟨b, _ | ⟨c, _ | ⟨d, ls⟩⟩⟩⟩
    · exact absurd h (by decide)
    · exact Bool.noConfusion h
    · exact Bool.noConfusion h
    · exact Bool.noConfusion h
    · simp only [wellFormedLoop, Bool.and_eq_true, List.all_eq_true,
        decide_eq_true_eq] at h
      obtain ⟨⟨⟨⟨⟨ha, hb⟩, hcc⟩, hdd⟩, hlen⟩, hup⟩ := h
      rcases ls with _ | ⟨u, _ | ⟨v, _ | ⟨w, ls2⟩⟩⟩
      · simp [containsSub, startsWithL] at h24
        obtain ⟨rfl, rfl, rfl, rfl⟩ := h24
        simp [nm1Pattern, nm1SpecTable, containsSub, startsWithL]
      · have hu := hup u (List.mem_cons_self u [])
        have hu0 : (u == '0') = false := upper_beq_digit_false hu (by decide)
        have hu1 : (u == '1') = false := upper_beq_digit_false hu (by decide)
        have hu2 : (u == '2') = false := upper_beq_digit_false hu (by decide)
        have hu3 : (u == '3') = false := upper_beq_digit_false hu (by decide)
        have hu4 : (u == '4') = false := upper_beq_digit_false hu (by decide)
        simp [containsSub, startsWithL, hu0, hu2] at h24
        obtain ⟨rfl, rfl, rfl, rfl⟩ := h24
        simp [nm1Pattern, nm1SpecTable, containsSub, startsWithL, hu0, hu1, hu2,
          hu3, hu4]
      · have hu := hup u (List.mem_cons_self u [v])
        have hv := hup v (List.mem_cons_of_mem u (List.mem_cons_self v []))
        have hu0 : (u == '0') = false := upper_beq_digit_false hu (by decide)
        have hu1 : (u == '1') = false := upper_beq_digit_false hu (by decide)
        have hu2 : (u == '2') = false := upper_beq_digit_false hu (by decide)
        have hu3 : (u == '3') = false := upper_beq_digit_false hu (by decide)
        have hu4 : (u == '4') = false := upper_beq_digit_false hu (by decide)
        have hv0 : (v == '0') = false := upper_beq_digit_false hv (by decide)
        have hv1 : (v == '1') = false := upper_beq_digit_false hv (by decide)
        have hv2 : (v == '2') = false := upper_beq_digit_false hv (by decide)
        have hv3 : (v == '3') = false := upper_beq_digit_false hv (by decide)
        have hv4 : (v == '4') = false := upper_beq_digit_false hv (by decide)
        simp [containsSub, startsWithL, hu0, hu2, hu4, hv0, hv2] at h24
        obtain ⟨rfl, rfl, rfl, rfl⟩ := h24
        simp [nm1Pattern, nm1SpecTable, containsSub, startsWithL, hu0, hu1, hu2,
          hu3, hu4, hv0, hv1, hv2, hv3, hv4]
      · simp at hlen

/-- C1: for every reference classified as `NM1`, the emitted search
pattern is determined solely by the extracted loop id through the static
table of the claim (`2010AA`→`85`, …, `2310B`/`2420`→`82`, `2330`→bare,
no match→bare). -/
theorem nm1_resolution (s : Chars) (h : segmentOf s = "NM1".data) :
    parseEdiFieldL s = nm1SpecTable (loopOf s) := by
  have h1 : parseEdiFieldL s = buildSearchTerm (segmentOf s) (loopOf s) (qualOf s) := rfl
  rw [h1, h]
  have h2 : ∀ lp q, buildSearchTerm "NM1".data lp q = nm1Pattern lp := fun lp q => rfl
  rw [h2]
  rcases hl : loopOf s with _ | lid
  · rfl
  · exact nm1_agree lid (loopIdOf_wellFormed hl)

/-- C1 witness: the `NM1` theorem applied at the spec's end-to-end example
`2010BANM109`, whose loop id `2010BA` resolves to `NM1*IL*`. -/
theorem nm1_resolution_witness :
    segmentOf "2010BANM109".data = "NM1".data ∧
    parseEdiFieldL "2010BANM109".data = nm1SpecTable (loopOf "2010BANM109".data) ∧
    nm1SpecTable (loopOf "2010BANM109".data) = "NM1*IL*".data :=
  ⟨by decide, nm1_resolution "2010BANM109".data (by decide), by decide⟩


theorem foundAnchored_iff {pat : Chars} (hpat : pat ≠ []) :
    ∀ (l : Chars) (ok : Bool),
      foundAnchored pat ok l = true ↔
        ∃ pre post, l = pre ++ pat ++ post ∧
          ((pre = [] ∧ ok = true) ∨ ∃ pre' b, pre = pre' ++ [b] ∧ isBoundaryC b = true) := by
  intro l
  induction l with
  | nil =>
    intro ok
    simp only [foundAnchored, Bool.false_eq_true, false_iff]
    rintro ⟨pre, post, heq, _⟩
    obtain ⟨h1, h2⟩ := List.append_eq_nil.mp heq.symm
    exact hpat (List.append_eq_nil.mp h1).2
  | cons c rest ih =>
    intro ok
    constructor
    · intro h
      simp only [foundAnchored, Bool.or_eq_true, Bool.and_eq_true] at h
      rcases h with ⟨hok, hsw⟩ | h2
      · obtain ⟨post, hpost⟩ := startsWithL_iff_exists.mp hsw
        exact ⟨[], post, by simpa using hpost, Or.inl ⟨rfl, hok⟩⟩
      · obtain ⟨pre, post, heq, hcond⟩ := (ih (isBoundaryC c)).mp h2
        refine ⟨c :: pre, post, by simp [heq], ?_⟩
        rcases hcond with ⟨rfl, hb⟩ | ⟨pre', b, rfl, hb⟩
        · exact Or.inr ⟨[], c, by simp, hb⟩
        · exact Or.inr ⟨c :: pre', b, by simp, hb⟩
    · rintro ⟨pre, post, heq, hcond⟩
      cases pre with
      | nil =>
        rcases hcond with ⟨_, hok⟩ | ⟨pre', b, hpre, _⟩
        · subst hok
          simp only [List.nil_append] at heq
          have hsw : startsWithL (c :: rest) pat = true :=
            startsWithL_iff_exists.mpr ⟨post, heq⟩
          unfold foundAnchored
          rw [hsw]
          simp
        · exact absurd hpre.symm (List.append_ne_nil_of_right_ne_nil pre' (by simp))
      | cons d pre2 =>
        simp only [List.cons_append, List.cons.injEq] at heq
        obtain ⟨rfl, heq2⟩ := heq
        simp only [foundAnchored, Bool.or_eq_true, Bool.and_eq_true]
        refine Or.inr ((ih (isBoundaryC c)).mpr ⟨pre2, post, heq2, ?_⟩)
        rcases hcond with ⟨hnil, _⟩ | ⟨pre', b, hpre, hb⟩
        · cases hnil
        · cases pre' with
          | nil =>
            simp only [List.nil_append, List.cons.injEq] at hpre
            obtain ⟨rfl, rfl⟩ := hpre
            exact Or.inl ⟨rfl, hb⟩
          | cons e pre3 =>
            simp only [List.cons_append, List.cons.injEq] at hpre
            obtain ⟨rfl, rfl⟩ := hpre
            exact Or.inr ⟨pre3, b, rfl, hb⟩

/-- C3 (spec-modelled): the document verifier returns true exactly when
the segment id occurs anchored in the text — preceded by start-of-text, a
segment terminator or a line break, and immediately followed by the field
delimiter; in particular it finds `NM1` in a text containing `~NM1*85*`
and rejects a text containing only `XNM1*`. -/
theorem document_verifier_anchored :
    (∀ text seg : Chars, foundAnchored (seg ++ [ '*' ]) true text = true ↔
      AnchoredOccurrence text seg) ∧
    segment_found_in_text "AB~NM1*85*~CD" "NM1" = true ∧
    segment_found_in_text "XNM1*" "NM1" = false := by
  refine ⟨?_, by decide, by decide⟩
  intro text seg
  rw [foundAnchored_iff (by simp) text true]
  unfold AnchoredOccurrence
  constructor
  · rintro ⟨pre, post, heq, hcond⟩
    refine ⟨pre, post, by simpa using heq, ?_⟩
    rcases hcond with ⟨rfl, _⟩ | hb
    · exact Or.inl rfl
    · exact Or.inr hb
  · rintro ⟨pre, post, heq, hcond⟩
    refine ⟨pre, post, by simpa using heq, ?_⟩
    rcases hcond with rfl | hb
    · exact Or.inl ⟨rfl, rfl⟩
    · exact Or.inr hb

/-! ### Claim C5 -/

/-- C5: the three trailing-qualifier patterns are tried in strict priority
order (`" -- "`, then `" - "`, then `" -"` followed by letters) and at
most one fires per reference; a slash-carrying qualifier keeps its last
slash-segment, so `2300HI01-2 -- BK/ABK` resolves to `HI*ABK`, and an `HI`
reference with no qualifier resolves to bare `HI*`. -/
theorem qualifier_priority :
    (∀ f : Chars, containsSub f ddSep = true →
      extractQual f = ⟨stripL (splitHead ddSep f).1,
        some (stripL (splitHead ddSep ((splitHead ddSep f).2.getD [])).1),
        some "double_dash"⟩) ∧
    (∀ f : Chars, containsSub f ddSep = false → containsSub f sdSep = true →
      extractQual f = ⟨stripL (splitHead sdSep f).1,
        some (stripL (splitHead sdSep ((splitHead sdSep f).2.getD [])).1),
        some "dash"⟩) ∧
    (∀ f run : Chars, containsSub f ddSep = false → containsSub f sdSep = false →
      containsSub f spSep = true → dashQualSearch f = some run →
      extractQual f = ⟨stripL (f.take ((findSubL spSep f).getD 0)),
        some (stripL run), some "dash"⟩) ∧
    (∀ f : Chars, containsSub f ddSep = false → containsSub f sdSep = false →
      dashQualSearch f = none → extractQual f = ⟨f, none, none⟩) ∧
    parseEdiFieldL "2300HI01-2 -- BK/ABK".data = "HI*ABK".data ∧
    parseEdiFieldL "2300HI01-2".data = "HI*".data ∧
    (∀ q : Chars, containsSub q [ '/' ] = true →
      hiPattern (some q) = "HI*".data ++ stripL (lastSlashPart q)) := by
  refine ⟨?_, ?_, ?_, ?_, by decide, by decide, ?_⟩
  · intro f h
    simp [extractQual, h]
  · intro f h1 h2
    simp [extractQual, h1, h2]
  · intro f run h1 h2 hs hm
    simp [extractQual, h1, h2, hs, hm]
  · intro f h1 h2 hm
    by_cases hs : containsSub f spSep = true
    · simp [extractQual, h1, h2, hs, hm]
    · simp only [Bool.not_eq_true] at hs
      simp [extractQual, h1, h2, hs]
  · intro q hq
    simp [hiPattern, hq]

/-- C5 witness: the priority theorem applied at concrete references for
each branch. -/
theorem qualifier_priority_witness :
    extractQual "A -- B".data = ⟨"A".data, some "B".data, some "double_dash"⟩ ∧
    extractQual "X - Y".data = ⟨"X".data, some "Y".data, some "dash"⟩ ∧
    extractQual "X -BG".data = ⟨"X".data, some "BG".data, some "dash"⟩ ∧
    extractQual "XY0".data = ⟨"XY0".data, none, none⟩ := by
  refine ⟨?_, ?_, ?_, ?_⟩
  · rw [qualifier_priority.1 "A -- B".data (by decide)]; decide
  · rw [qualifier_priority.2.1 "X - Y".data (by decide) (by decide)]; decide
  · rw [qualifier_priority.2.2.1 "X -BG".data "BG".data (by decide) (by decide)
      (by decide) (by decide)]
    decide
  · rw [qualifier_priority.2.2.2.1 "XY0".data (by decide) (by decide) (by decide)]

/-! ### Claim C6 -/

/-- Written from the amended claim: `DTP` resolution — a qualifier
containing `RD8` (case-insensitive) with leading digits gives
`DTP*<digits>*RD8`; a qualifier without `RD8` but with leading digits
gives `DTP*<digits>*`; any other case (no qualifier, or a qualifier with
no leading digits) gives the bare `DTP*`. -/
def dtpSpec (q : Option Chars) : Chars :=
  match q with
  | some qual =>
    let d := qual.takeWhile isDigitC
    if containsSub (upperL qual) "RD8".data then
      if d.isEmpty then "DTP*".data else "DTP*".data ++ d ++ "*RD8".data
    else if d.isEmpty then "DTP*".data else "DTP*".data ++ d ++ [ '*' ]
  | none => "DTP*".data

/-- C6 counterexample: the reference `2300DTP03 - DR` is classified `DTP`
with qualifier `DR`; the code emits the bare `DTP*`, not the
`DTP**` (`DTP*` + leading digits of the qualifier + `*`) the claim
prescribes for a qualifier without `RD8`. -/
theorem dtp_counterexample :
    segmentOf "2300DTP03 - DR".data = "DTP".data ∧
    qualOf "2300DTP03 - DR".data = some "DR".data ∧
    parseEdiFieldL "2300DTP03 - DR".data = "DTP*".data ∧
    ¬ parseEdiFieldL "2300DTP03 - DR".data =
        "DTP*".data ++ "DR".data.takeWhile isDigitC ++ [ '*' ] := by decide

/-- C6 amended: for every reference classified `DTP`, the emitted pattern
follows the `dtpSpec` table — `DTP*<digits>*RD8` for an `RD8` qualifier
with leading digits, `DTP*<digits>*` for a non-`RD8` qualifier with
leading digits, and the bare `DTP*` otherwise. -/
theorem dtp_resolution (s : Chars) (h : segmentOf s = "DTP".data) :
    parseEdiFieldL s = dtpSpec (qualOf s) := by
  have h1 : parseEdiFieldL s = buildSearchTerm (segmentOf s) (loopOf s) (qualOf s) := rfl
  rw [h1, h]
  have h2 : ∀ lp q, buildSearchTerm "DTP".data lp q = dtpPattern q := fun lp q => rfl
  rw [h2]
  rcases qualOf s with _ | q
  · rfl
  · rfl

/-- C6 witness: the `DTP` theorem applied at the spec's two examples —
qualifier `434` gives `DTP*434*` and qualifier `300 RD8` gives
`DTP*300*RD8` — and at a doubled-separator reference whose empty extracted
qualifier refires the attached-HI step (Python's `not qualifier`), where
the `DTP` classification wins and the re-extracted letters-only qualifier
falls through to the bare `DTP*`. -/
theorem dtp_resolution_witness :
    parseEdiFieldL "2300DTP03 - 434".data = dtpSpec (qualOf "2300DTP03 - 434".data) ∧
    dtpSpec (qualOf "2300DTP03 - 434".data) = "DTP*434*".data ∧
    parseEdiFieldL "2300DTP03 -- 300 RD8".data =
      dtpSpec (qualOf "2300DTP03 -- 300 RD8".data) ∧
    dtpSpec (qualOf "2300DTP03 -- 300 RD8".data) = "DTP*300*RD8".data ∧
    parseEdiFieldL "2300DTPHI01-2-CLM --  -- Z".data =
      dtpSpec (qualOf "2300DTPHI01-2-CLM --  -- Z".data) ∧
    qualOf "2300DTPHI01-2-CLM --  -- Z".data = some "CLM".data ∧
    dtpSpec (qualOf "2300DTPHI01-2-CLM --  -- Z".data) = "DTP*".data :=
  ⟨dtp_resolution _ (by decide), by decide, dtp_resolution _ (by decide), by decide,
   dtp_resolution _ (by decide), by decide, by decide⟩

/-! ### Claims C7, C8, C9 -/

theorem normalizeQual_id (f : Chars)
    (h1 : containsSub f ddSep = false) (h2 : containsSub f sdSep = false)
    (h3 : dashQualSearch f = none)
    (h4 : containsSub (upperL f) "HI".data = false ∨ hiAttached f = none) :
    normalizeQual f = ⟨f, none, none⟩ := by
  have he : extractQual f = ⟨f, none, none⟩ := by
    by_cases hs : containsSub f spSep = true
    · simp [extractQual, h1, h2, hs, h3]
    · simp only [Bool.not_eq_true] at hs
      simp [extractQual, h1, h2, hs]
  unfold normalizeQual
  rw [he]
  rcases h4 with h4 | h4
  · simp [h4]
  · by_cases hg : containsSub (upperL f) "HI".data = true
    · simp [hg, h4]
    · simp only [Bool.not_eq_true] at hg
      simp [hg]

/-- C7 counterexample: the code performs no parenthetical stripping — the
annotation `(DTP)` changes the emitted pattern (`FOO01 (DTP)` gives
`DTP*` while `FOO01` gives `FOO0*`). -/
theorem annotations_counterexample :
    parseEdiFieldL "FOO01 (DTP)".data = "DTP*".data ∧
    parseEdiFieldL "FOO01".data = "FOO0*".data ∧
    ¬ parseEdiFieldL "FOO01 (DTP)".data = parseEdiFieldL "FOO01".data := by decide

/-- C7 amended: normalisation never strips parenthetical or `when ...`
annotations — when no compound separator, no dash-qualifier pattern and no
attached-HI pattern fires, the core token is the stripped raw reference,
annotations included, and such annotations can change the classification
and pattern (e.g. `FOO01 (DTP)` → `DTP*` vs `FOO01` → `FOO0*`). -/
theorem annotations_not_stripped :
    (∀ s : Chars, containsSub (stripL s) plusSep = false →
      containsSub (stripL s) ddSep = false → containsSub (stripL s) sdSep = false →
      dashQualSearch (stripL s) = none →
      (containsSub (upperL (stripL s)) "HI".data = false ∨ hiAttached (stripL s) = none) →
      (coreOf s).field = stripL s) ∧
    parseEdiFieldL "FOO01 (DTP)".data = "DTP*".data ∧
    parseEdiFieldL "FOO01".data = "FOO0*".data := by
  refine ⟨?_, by decide, by decide⟩
  intro s hp h1 h2 h3 h4
  have hn := normalizeQual_id (stripL s) h1 h2 h3 h4
  simp [coreOf, compoundStep, hp, hn]

/-- C7 witness: the amended theorem applied at `FOO01 (DTP)` — the
parenthetical survives normalisation. -/
theorem annotations_not_stripped_witness :
    (coreOf "FOO01 (DTP)".data).field = stripL "FOO01 (DTP)".data :=
  annotations_not_stripped.1 "FOO01 (DTP)".data (by decide) (by decide) (by decide)
    (by decide) (Or.inl (by decide))

/-- C8 counterexample: a bare `+` (without surrounding spaces) is not
treated as a compound separator — for `FOO01+DTP03` the second member
drives the result (`DTP*`), which differs from the first member's own
pattern (`FOO0*`). -/
theorem compound_counterexample :
    containsSub "FOO01+DTP03".data [ '+' ] = true ∧
    parseEdiFieldL "FOO01+DTP03".data = "DTP*".data ∧
    parseEdiFieldL "FOO01".data = "FOO0*".data ∧
    ¬ parseEdiFieldL "FOO01+DTP03".data = parseEdiFieldL "FOO01".data := by decide

/-- C8 amended: only the spaced separator `" + "` triggers compound-list
handling; when it occurs, only the first member is processed and all
later members are discarded (a bare `+` is not a separator). -/
theorem compound_first_member :
    (∀ s : Chars, containsSub (stripL s) plusSep = true →
      parseEdiFieldL s = resolveNoCompound (stripL (splitHead plusSep (stripL s)).1)) ∧
    parseEdiFieldL "2300CLM05-1 + 2300CLM05-3".data = parseEdiFieldL "2300CLM05-1".data := by
  constructor
  · intro s h
    unfold parseEdiFieldL compoundStep
    rw [if_pos h]
  · decide

/-- C8 witness: the compound theorem applied at the docstring's example
`2300CLM05-1 + 2300CLM05-3`, whose first member resolves to `CLM*`. -/
theorem compound_first_member_witness :
    parseEdiFieldL "2300CLM05-1 + 2300CLM05-3".data =
      resolveNoCompound (stripL (splitHead plusSep
        (stripL "2300CLM05-1 + 2300CLM05-3".data)).1) ∧
    resolveNoCompound (stripL (splitHead plusSep
      (stripL "2300CLM05-1 + 2300CLM05-3".data)).1) = "CLM*".data :=
  ⟨compound_first_member.1 _ (by decide), by decide⟩

/-- C9 counterexample: qualifier extraction is not idempotent on its own
output — for `2300DTP03 - 434 -- RD8` the extracted core token
`2300DTP03 - 434` still contains a `" - "` pattern, so re-normalising it
strips further (to `2300DTP03`) and re-parsing yields `DTP*434*` instead
of the first parse's `DTP*`. -/
theorem renormalize_counterexample :
    (coreOf "2300DTP03 - 434 -- RD8".data).field = "2300DTP03 - 434".data ∧
    ¬ (normalizeQual "2300DTP03 - 434".data).field = "2300DTP03 - 434".data ∧
    parseEdiFieldL "2300DTP03 - 434 -- RD8".data = "DTP*".data ∧
    parseEdiFieldL "2300DTP03 - 434".data = "DTP*434*".data := by decide

/-- C9 amended: re-normalising a token leaves its field unchanged exactly
when the token contains none of the qualifier patterns (no `" -- "`, no
`" - "`, no `" -"`-with-letters match, and no attached-HI match), and in
that case nothing is extracted at all (the whole result is the identity);
whenever any pattern is present the field is strictly rewritten. -/
theorem renormalize_conditional (f : Chars) :
    ((normalizeQual f).field = f ↔
      (containsSub f ddSep = false ∧ containsSub f sdSep = false ∧
       dashQualSearch f = none ∧
       (containsSub (upperL f) "HI".data = false ∨ hiAttached f = none))) ∧
    ((normalizeQual f).field = f → normalizeQual f = ⟨f, none, none⟩) := by
  have hmp : (normalizeQual f).field = f →
      containsSub f ddSep = false ∧ containsSub f sdSep = false ∧
      dashQualSearch f = none ∧
      (containsSub (upperL f) "HI".data = false ∨ hiAttached f = none) ∧
      normalizeQual f = ⟨f, none, none⟩ := by
    intro hfe
    have hlen : (normalizeQual f).field.length = f.length := by rw [hfe]
    have hle := normalizeQual_field_length f
    have hdd : containsSub f ddSep = false := by
      cases hc : containsSub f ddSep with
      | false => rfl
      | true =>
        exfalso
        obtain ⟨i, hfind, hbound⟩ := findSubL_some_of_contains hc
        have hfld : (extractQual f).field = stripL (f.take i) := by
          simp [extractQual, hc, splitHead, hfind]
        have hlt := stripTake_length_lt (f := f) (i := i) (k := ddSep.length)
          (by decide) hbound
        rw [hfld] at hle
        omega
    have hsd : containsSub f sdSep = false := by
      cases hc : containsSub f sdSep with
      | false => rfl
      | true =>
        exfalso
        obtain ⟨i, hfind, hbound⟩ := findSubL_some_of_contains hc
        have hfld : (extractQual f).field = stripL (f.take i) := by
          simp [extractQual, hdd, hc, splitHead, hfind]
        have hlt := stripTake_length_lt (f := f) (i := i) (k := sdSep.length)
          (by decide) hbound
        rw [hfld] at hle
        omega
    have hds : dashQualSearch f = none := by
      cases hc : dashQualSearch f with
      | none => rfl
      | some run =>
        exfalso
        have hsp : containsSub f spSep = true := dashQualSearch_some_contains hc
        obtain ⟨i, hfind, hbound⟩ := findSubL_some_of_contains hsp
        have hfld : (extractQual f).field = stripL (f.take i) := by
          simp [extractQual, hdd, hsd, hsp, hc, hfind]
        have hlt := stripTake_length_lt (f := f) (i := i) (k := spSep.length)
          (by decide) hbound
        rw [hfld] at hle
        omega
    have hex : extractQual f = ⟨f, none, none⟩ := by
      by_cases hsp : containsSub f spSep = true
      · simp [extractQual, hdd, hsd, hsp, hds]
      · simp only [Bool.not_eq_true] at hsp
        simp [extractQual, hdd, hsd, hsp]
    have hhid : containsSub (upperL f) "HI".data = false ∨ hiAttached f = none := by
      by_cases hg : containsSub (upperL f) "HI".data = true
      · refine Or.inr ?_
        cases hhi : hiAttached f with
        | none => rfl
        | some p =>
          exfalso
          obtain ⟨nf, qq⟩ := p
          have hshort := hiAttached_some_shorter hhi
          have hval : normalizeQual f = ⟨nf, some qq, some "attached"⟩ := by
            simp [normalizeQual, hex, hg, hhi]
          rw [hval] at hlen
          have hlen2 : nf.length = f.length := hlen
          omega
      · exact Or.inl (by simpa using hg)
    exact ⟨hdd, hsd, hds, hhid, normalizeQual_id f hdd hsd hds hhid⟩
  constructor
  · constructor
    · intro hfe
      obtain ⟨h1, h2, h3, h4, _⟩ := hmp hfe
      exact ⟨h1, h2, h3, h4⟩
    · rintro ⟨h1, h2, h3, h4⟩
      rw [normalizeQual_id f h1 h2 h3 h4]
  · intro hfe
    exact (hmp hfe).2.2.2.2

/-- C9 witness: the biconditional applied at the pattern-free core token
`2300DTP03` — the right-to-left direction discharged by evaluation, and
the strengthened identity conclusion. -/
theorem renormalize_conditional_witness :
    normalizeQual "2300DTP03".data = ⟨"2300DTP03".data, none, none⟩ :=
  (renormalize_conditional "2300DTP03".data).2
    (((renormalize_conditional "2300DTP03".data).1).mpr
      ⟨by decide, by decide, by decide, Or.inl (by decide)⟩)

end EdiSearchSS
